import Mathlib

/-!
# Verification of the file-set reconciliation and download engine (`src/modpack.rs`)

This file gives a shallow embedding of the core of `src/modpack.rs`:

* `find_dupes_by_key`  — the duplicate detector (`src/modpack.rs:255-272`);
* `clean`              — the directory reconciler (`src/modpack.rs:161-213`);
* `install_modpack`'s reconciliation stage (`src/modpack.rs:136-148`);
* the join loop and semaphore discipline of `download` (`src/modpack.rs:215-253`).

Filenames are modelled as `List Char` (Rust `String` / `OsString` contents);
the filesystem effects of one reconciliation pass are modelled as a list of
per-entry actions (`keep` / `moveOld` / `delete`), and the network effects of
the scheduler as lists of task completions.
-/

/-- A filename, modelled as its character sequence. -/
abbrev Filename := List Char

/-- Abbreviation to write concrete filenames. -/
def str (s : String) : Filename := s.toList

/-- `libium::upgrade::Downloadable`, reduced to the one field the reconciliation
and scheduling pipeline inspects: its target `filename` (`Downloadable::filename`). -/
structure Downloadable where
  filename : Filename
deriving DecidableEq, Repr, Inhabited

/-- One override entry `(OsString, PathBuf)` produced by `read_overrides`
(`src/modpack.rs:152-159`): a name and a source path in the staging area. -/
structure OverrideEntry where
  name : Filename
  path : Filename
deriving DecidableEq, Repr, Inhabited

/-- One entry of `read_dir(directory)` as inspected by `clean`
(`src/modpack.rs:178-184`): its file name and whether `file_type()?.is_file()`. -/
structure DirEntry where
  name : Filename
  isFile : Bool
deriving DecidableEq, Repr, Inhabited

/-- `Vec::swap_remove(i)`: replace element `i` with the last element and pop.
Total model; in the source it is only called with `i` in bounds. -/
def swapRemove {T : Type} (l : List T) (i : Nat) : List T :=
  match l.getLast? with
  | none => l
  | some last => (l.set i last).dropLast

/-- Indices (starting at `n`) of the elements of a list that have an
identical-key successor, in increasing order: the scan
`for i in 0..(slice.len() - 1) { if key(slice[i]) == key(slice[i+1]) ... }`
of `find_dupes_by_key` (`src/modpack.rs:265-269`). -/
def adjDupes {T V : Type} [LinearOrder V] (key : T → V) : List T → Nat → List Nat
  | x :: y :: rest, n =>
    if key x = key y then n :: adjDupes key (y :: rest) (n + 1)
    else adjDupes key (y :: rest) (n + 1)
  | _, _ => []

/-- `slice.sort_unstable_by_key(&key)` (`src/modpack.rs:264`): a sort of the
slice by key.  (`sort_unstable_by_key` guarantees only some sorted-by-key
permutation; this model picks one.) -/
def sortByKey {T V : Type} [LinearOrder V] (key : T → V) (slice : List T) : List T :=
  letI : DecidableRel (fun a b : T => key a ≤ key b) :=
    fun a b => inferInstanceAs (Decidable (key a ≤ key b))
  slice.insertionSort (fun a b => key a ≤ key b)

/-- `find_dupes_by_key` (`src/modpack.rs:255-272`): if the slice has fewer than
two elements, return it unchanged with no indices.  Otherwise sort the slice in
place by key (`sort_unstable_by_key`), scan adjacent pairs collecting every
index whose successor has the same key, and return the indices reversed
(descending).  The returned first component is the slice as the caller sees it
after the call (sorted). -/
def find_dupes_by_key {T V : Type} [LinearOrder V] (slice : List T) (key : T → V) :
    List T × List Nat :=
  if slice.length < 2 then (slice, [])
  else
    let sorted := sortByKey key slice
    (sorted, (adjDupes key sorted 0).reverse)

/-- The elements of a list that have an identical-key successor (all members
of each equal-key run except its last occurrence). -/
def runDrops {T V : Type} [LinearOrder V] (key : T → V) : List T → List T
  | x :: y :: rest =>
    if key x = key y then x :: runDrops key (y :: rest)
    else runDrops key (y :: rest)
  | _ => []

/-- The last element of each equal-key run of a list (the elements without an
identical-key successor). -/
def runLasts {T V : Type} [LinearOrder V] (key : T → V) : List T → List T
  | [] => []
  | [x] => [x]
  | x :: y :: rest =>
    if key x = key y then runLasts key (y :: rest)
    else x :: runLasts key (y :: rest)

/-- The number of occurrences of the filename `k` in a list of filenames. -/
def countName (k : Filename) (l : List Filename) : Nat :=
  l.countP (fun x => x == k)

/-- The elements returned by the successive `swap_remove(i)` calls the caller
performs on the slice for a list of indices (`src/modpack.rs:170-174`). -/
def swapRemovedElems {T : Type} [Inhabited T] (l : List T) : List Nat → List T
  | [] => []
  | i :: rest => l.getD i default :: swapRemovedElems (swapRemove l i) rest

/-- Folding the caller's `swap_remove` calls over the reported indices. -/
def swapRemoveAll {T : Type} (l : List T) (idxs : List Nat) : List T :=
  idxs.foldl swapRemove l

/-- The duplicate-dropping phase at the top of `clean` (`src/modpack.rs:166-176`):
run `find_dupes_by_key` keyed by filename over `to_download` (which sorts it in
place), then `swap_remove` each reported index, collecting the removed
filenames for the warning message.  Returns the surviving plan and the warned
names. -/
def applyDupes (to_download : List Downloadable) : List Downloadable × List Filename :=
  let (sorted, idxs) := find_dupes_by_key to_download Downloadable.filename
  (swapRemoveAll sorted idxs, (swapRemovedElems sorted idxs).map Downloadable.filename)

/-- What happened to one directory entry during a reconciliation pass. -/
inductive FileAction
  /-- left in place (it matched a desired download or install entry) -/
  | keep
  /-- moved to `<directory>/.old/<name>` -/
  | moveOld
  /-- removed with `remove_file` -/
  | delete
deriving DecidableEq, Repr

/-- The two desired sets threaded by reference through `clean`. -/
structure CleanState where
  toDownload : List Downloadable
  toInstall : List OverrideEntry
deriving DecidableEq, Repr

/-- The per-entry body of the `for file in read_dir(directory)` loop of `clean`
(`src/modpack.rs:178-211`).  `moveOk name` tells whether the `move_file` into
`.old` would succeed for that name (the environment's choice).  Returns the
action taken on the entry (`none` for non-files, which are skipped) and the
updated desired sets. -/
def cleanStep (moveOk : Filename → Bool) (st : CleanState) (e : DirEntry) :
    Option FileAction × CleanState :=
  if e.isFile then
    match st.toDownload.findIdx? (fun thing => e.name == thing.filename) with
    | some i => (some .keep, ⟨swapRemove st.toDownload i, st.toInstall⟩)
    | none =>
      match st.toInstall.findIdx? (fun thing => e.name == thing.name) with
      | some i => (some .keep, ⟨st.toDownload, swapRemove st.toInstall i⟩)
      | none =>
        if (str "part").isSuffixOf e.name then (some .delete, st)
        else if moveOk e.name then (some .moveOld, st)
        else (some .delete, st)
  else (none, st)

/-- The whole `read_dir` loop of `clean`, over the listed entries in order. -/
def cleanLoop (moveOk : Filename → Bool) :
    List DirEntry → CleanState → List (DirEntry × Option FileAction) × CleanState
  | [], st => ([], st)
  | e :: rest, st =>
    let (a, st') := cleanStep moveOk st e
    let (acts, stF) := cleanLoop moveOk rest st'
    ((e, a) :: acts, stF)

/-- Result of one `clean` pass: the action taken on every directory entry, the
filenames warned about as duplicates, whether the pass had to create the
`.old` subdirectory, and the final desired sets. -/
structure CleanResult where
  actions : List (DirEntry × Option FileAction)
  droppedDupes : List Filename
  createdOldDir : Bool
  final : CleanState
deriving DecidableEq, Repr

/-- `clean` (`src/modpack.rs:161-213`): drop duplicate downloads (sorting
`to_download` in place), `create_dir_all(directory/.old)` (a mutation only when
absent, recorded in `createdOldDir`), then classify every directory entry. -/
def clean (moveOk : Filename → Bool) (oldDirExists : Bool) (entries : List DirEntry)
    (st : CleanState) : CleanResult :=
  let (dl, dropped) := applyDupes st.toDownload
  let (acts, stF) := cleanLoop moveOk entries ⟨dl, st.toInstall⟩
  ⟨acts, dropped, !oldDirExists, stF⟩

/-- The directory entries left in place by a pass: skipped non-files and kept
files, in their original order (moved and deleted entries are gone). -/
def keptEntries (acts : List (DirEntry × Option FileAction)) : List DirEntry :=
  acts.filterMap fun p =>
    match p.2 with
    | none => some p.1
    | some .keep => some p.1
    | some .moveOld => none
    | some .delete => none

/-- The reconciliation stage of `install_modpack` (`src/modpack.rs:136-148`):
`clean` is called once for `mods` and once for `resourcepacks`, each time with
the shared `to_download` plan but a fresh empty install set
(`&mut Vec::new()`); the `overrides` read from the archive are then handed to
`download` unchanged.  Returns the download plan and install set passed to
`download`. -/
def install_modpack_reconcile (moveOk : Filename → Bool)
    (modsOldEx rpOldEx : Bool) (modsEntries rpEntries : List DirEntry)
    (to_download : List Downloadable) (overrides : List OverrideEntry) :
    List Downloadable × List OverrideEntry :=
  let r1 := clean moveOk modsOldEx modsEntries ⟨to_download, []⟩
  let r2 := clean moveOk rpOldEx rpEntries ⟨r1.final.toDownload, []⟩
  (r2.final.toDownload, overrides)

/-- Outcome of one spawned transfer task: the body
`downloadable.download(...).await?; Ok(())` (`src/modpack.rs:229-234`). -/
inductive TaskResult
  | success
  | failure (e : Filename)
deriving DecidableEq, Repr

/-- One task completion as observed by `tasks.join_next().await`: the index of
the downloadable and the task's result.  A list of `TaskCompletion`s is the
completion order of the spawned tasks. -/
structure TaskCompletion where
  idx : Nat
  result : TaskResult
deriving DecidableEq, Repr

/-- The join loop `while let Some(res) = tasks.join_next().await { res??; }`
(`src/modpack.rs:236-238`): results are inspected in completion order and the
first failure is returned immediately by `?`. -/
def joinLoopResult : List TaskCompletion → TaskResult
  | [] => .success
  | c :: rest =>
    match c.result with
    | .success => joinLoopResult rest
    | .failure e => .failure e

/-- The tasks whose side effects are performed by the time `download` returns:
a task's effects happen exactly when it runs to completion.  When `res??`
returns the first failure, the `JoinSet` is dropped, which aborts every task
that has not yet completed, so only the completions up to and including the
first failure are performed. -/
def performedTasks : List TaskCompletion → List Nat
  | [] => []
  | c :: rest =>
    match c.result with
    | .success => c.idx :: performedTasks rest
    | .failure _ => [c.idx]

/-- `Semaphore::new(75)` (`src/modpack.rs:222`). -/
def concurrencyLimit : Nat := 75

/-- An observable event of the spawn/transfer machinery of `download`
(`src/modpack.rs:225-238`): a task starts (its transfer begins) or finishes. -/
inductive DlEvent
  | start (i : Nat)
  | finish (i : Nat)
deriving DecidableEq, Repr

/-- Valid interleavings of `download`'s loop for `n` downloadables, from a
state where `next` is the next item of the `for` loop and `running` holds the
tasks currently in flight.  A task may start only in submission order
(`i = next`), only while a permit is free (`running.length < limit`, the
`acquire_owned` in `src/modpack.rs:226` blocks otherwise, and the permit is
held by the task until it completes, `src/modpack.rs:230`), and only for a
submitted item (`i < n`); a task may finish only while it is running. -/
def validTrace (limit n : Nat) : Nat → List Nat → List DlEvent → Bool
  | _, _, [] => true
  | next, running, .start i :: tr =>
    i == next && i < n && running.length < limit &&
      validTrace limit n (next + 1) (i :: running) tr
  | next, running, .finish i :: tr =>
    running.contains i && validTrace limit n next (running.erase i) tr

/-- The set of tasks in flight after processing a list of events from the
in-flight set `running`. -/
def runningAfter (running : List Nat) : List DlEvent → List Nat
  | [] => running
  | .start i :: tr => runningAfter (i :: running) tr
  | .finish i :: tr => runningAfter (running.erase i) tr

section SwapRemoveLemmas

variable {T : Type}

lemma swapRemove_nil (i : Nat) : swapRemove ([] : List T) i = [] := rfl

lemma swapRemove_of_ne_nil {l : List T} (h : l ≠ []) (i : Nat) :
    swapRemove l i = (l.set i (l.getLast h)).dropLast := by
  unfold swapRemove
  rw [List.getLast?_eq_getLast l h]

lemma swapRemove_length {l : List T} {i : Nat} (h : i < l.length) :
    (swapRemove l i).length = l.length - 1 := by
  have hne : l ≠ [] := List.ne_nil_of_length_pos (Nat.lt_of_le_of_lt (Nat.zero_le i) h)
  rw [swapRemove_of_ne_nil hne, List.length_dropLast, List.length_set]

lemma swapRemove_subset (l : List T) (i : Nat) : swapRemove l i ⊆ l := by
  intro x hx
  unfold swapRemove at hx
  cases hl : l.getLast? with
  | none => rw [hl] at hx; exact hx
  | some last =>
    rw [hl] at hx
    have hx' := List.dropLast_subset _ hx
    rcases List.mem_or_eq_of_mem_set hx' with h | h
    · exact h
    · subst h
      exact List.mem_of_getLast?_eq_some hl

lemma swapRemove_perm_eraseIdx :
    ∀ (l : List T) (i : Nat), i < l.length → (swapRemove l i).Perm (l.eraseIdx i) := by
  intro l
  induction l with
  | nil => intro i h; exact absurd h (by simp)
  | cons x t ih =>
    intro i hi
    cases i with
    | zero =>
      by_cases ht : t = []
      · subst ht
        simp [swapRemove]
      · have hne : x :: t ≠ [] := List.cons_ne_nil x t
        have htne : t ≠ [] := ht
        rw [swapRemove_of_ne_nil hne]
        have hlast : (x :: t).getLast hne = t.getLast htne :=
          List.getLast_cons htne
        have hset : (x :: t).set 0 ((x :: t).getLast hne) = (x :: t).getLast hne :: t := rfl
        rw [hset, hlast]
        have hdecomp : t = t.dropLast ++ [t.getLast htne] :=
          (List.dropLast_append_getLast htne).symm
        have hdrop : (t.getLast htne :: t).dropLast = t.getLast htne :: t.dropLast := by
          rw [List.dropLast_cons_of_ne_nil htne]
        rw [hdrop, List.eraseIdx]
        conv_rhs => rw [hdecomp]
        exact (List.perm_append_singleton _ _).symm
    | succ j =>
      have hj : j < t.length := by simpa using hi
      have htne : t ≠ [] := List.ne_nil_of_length_pos (Nat.lt_of_le_of_lt (Nat.zero_le j) hj)
      have hne : x :: t ≠ [] := List.cons_ne_nil x t
      rw [swapRemove_of_ne_nil hne]
      have hlast : (x :: t).getLast hne = t.getLast htne := List.getLast_cons htne
      have hset : (x :: t).set (j + 1) ((x :: t).getLast hne)
          = x :: t.set j (t.getLast htne) := by rw [hlast]; rfl
      rw [hset]
      have hsetne : t.set j (t.getLast htne) ≠ [] := by
        intro hc
        exact htne (by simpa using congrArg List.length hc)
      rw [List.dropLast_cons_of_ne_nil hsetne, List.eraseIdx]
      have := (ih j hj).cons x
      rw [swapRemove_of_ne_nil htne] at this
      exact this

lemma swapRemove_getD_of_lt {l : List T} {i j : Nat} (hij : j < i) (hi : i < l.length)
    (d : T) : (swapRemove l i).getD j d = l.getD j d := by
  have hne : l ≠ [] := List.ne_nil_of_length_pos (Nat.lt_of_le_of_lt (Nat.zero_le i) hi)
  rw [swapRemove_of_ne_nil hne]
  have hj : j < (l.set i (l.getLast hne)).dropLast.length := by
    rw [List.length_dropLast, List.length_set]
    omega
  have hj2 : j < (l.set i (l.getLast hne)).length := by
    rw [List.length_set]; omega
  have hj3 : j < l.length := by omega
  rw [List.getD_eq_getElem _ _ hj, List.getElem_dropLast,
    List.getElem_set_ne (Nat.ne_of_gt hij), List.getD_eq_getElem _ _ hj3]

lemma perm_getD_cons_eraseIdx :
    ∀ (l : List T) (i : Nat), i < l.length → ∀ d : T,
      l.Perm (l.getD i d :: l.eraseIdx i) := by
  intro l
  induction l with
  | nil => intro i h; exact absurd h (by simp)
  | cons x t ih =>
    intro i hi d
    cases i with
    | zero => simp [List.eraseIdx]
    | succ j =>
      have hj : j < t.length := by simpa using hi
      have h1 : (x :: t).Perm (x :: (t.getD j d :: t.eraseIdx j)) := (ih j hj d).cons x
      have h2 : (x :: (t.getD j d :: t.eraseIdx j)).Perm
          (t.getD j d :: (x :: t.eraseIdx j)) := List.Perm.swap _ _ _
      simpa [List.eraseIdx, List.getD_cons_succ] using h1.trans h2

end SwapRemoveLemmas

section DedupLemmas

variable {T V : Type}

lemma swapRemoveAll_cons (l : List T) (i : Nat) (rest : List Nat) :
    swapRemoveAll l (i :: rest) = swapRemoveAll (swapRemove l i) rest := rfl

lemma swapRemoveAll_subset : ∀ (idxs : List Nat) (l : List T), swapRemoveAll l idxs ⊆ l := by
  intro idxs
  induction idxs with
  | nil => intro l; exact List.Subset.refl l
  | cons i rest ih =>
    intro l
    exact (ih (swapRemove l i)).trans (swapRemove_subset l i)

lemma swapRemoveAll_append_removed_perm [Inhabited T] :
    ∀ (idxs : List Nat) (l : List T), List.Sorted (· > ·) idxs →
      (∀ i ∈ idxs, i < l.length) →
      (swapRemoveAll l idxs ++ swapRemovedElems l idxs).Perm l := by
  intro idxs
  induction idxs with
  | nil =>
    intro l _ _
    simp [swapRemoveAll, swapRemovedElems]
  | cons i rest ih =>
    intro l hsorted hlen
    have hi : i < l.length := hlen i (List.mem_cons_self i rest)
    have hrest_lt : ∀ j ∈ rest, j < i := fun j hj =>
      (List.sorted_cons.mp hsorted).1 j hj
    have hlen' : ∀ j ∈ rest, j < (swapRemove l i).length := by
      intro j hj
      have := hrest_lt j hj
      rw [swapRemove_length hi]
      omega
    have ihp := ih (swapRemove l i) (List.sorted_cons.mp hsorted).2 hlen'
    have p1 : (swapRemoveAll l (i :: rest) ++ swapRemovedElems l (i :: rest)).Perm
        (l.getD i default :: (swapRemoveAll (swapRemove l i) rest ++
          swapRemovedElems (swapRemove l i) rest)) := by
      have hm := @List.perm_middle T (l.getD i default)
        (swapRemoveAll (swapRemove l i) rest) (swapRemovedElems (swapRemove l i) rest)
      rw [swapRemoveAll_cons]
      exact hm
    have p2 := ihp.cons (l.getD i default)
    have p3 := (swapRemove_perm_eraseIdx l i hi).cons (l.getD i default)
    have p4 := (perm_getD_cons_eraseIdx l i hi default).symm
    exact p1.trans (p2.trans (p3.trans p4))

lemma swapRemovedElems_eq_map [Inhabited T] :
    ∀ (idxs : List Nat) (l : List T), List.Sorted (· > ·) idxs →
      (∀ i ∈ idxs, i < l.length) →
      swapRemovedElems l idxs = idxs.map (fun i => l.getD i default) := by
  intro idxs
  induction idxs with
  | nil => intro l _ _; rfl
  | cons i rest ih =>
    intro l hsorted hlen
    have hi : i < l.length := hlen i (List.mem_cons_self i rest)
    have hrest_lt : ∀ j ∈ rest, j < i := fun j hj =>
      (List.sorted_cons.mp hsorted).1 j hj
    have hlen' : ∀ j ∈ rest, j < (swapRemove l i).length := by
      intro j hj
      have := hrest_lt j hj
      rw [swapRemove_length hi]
      omega
    have ih' := ih (swapRemove l i) (List.sorted_cons.mp hsorted).2 hlen'
    have hmap : rest.map (fun j => (swapRemove l i).getD j default)
        = rest.map (fun j => l.getD j default) := by
      apply List.map_congr_left
      intro j hj
      exact swapRemove_getD_of_lt (hrest_lt j hj) hi default
    rw [swapRemovedElems, ih', hmap, List.map_cons]

lemma adjDupes_shift [LinearOrder V] (key : T → V) :
    ∀ (l : List T) (n : Nat), adjDupes key l (n + 1) = (adjDupes key l n).map (· + 1) := by
  intro l
  induction l with
  | nil => intro n; rfl
  | cons x t ih =>
    intro n
    cases t with
    | nil => rfl
    | cons y rest =>
      by_cases h : key x = key y <;>
        simp [adjDupes, h, ih (n + 1)]

lemma adjDupes_lb [LinearOrder V] (key : T → V) :
    ∀ (l : List T) (n i : Nat), i ∈ adjDupes key l n → n ≤ i := by
  intro l
  induction l with
  | nil => intro n i h; exact absurd h (List.not_mem_nil i)
  | cons x t ih =>
    intro n i h
    cases t with
    | nil => exact absurd h (List.not_mem_nil i)
    | cons y rest =>
      by_cases hk : key x = key y
      · simp [adjDupes, hk] at h
        rcases h with h | h
        · omega
        · have := ih (n + 1) i h
          omega
      · simp [adjDupes, hk] at h
        have := ih (n + 1) i h
        omega

lemma adjDupes_ub [LinearOrder V] (key : T → V) :
    ∀ (l : List T) (n i : Nat), i ∈ adjDupes key l n → i + 1 < n + l.length := by
  intro l
  induction l with
  | nil => intro n i h; exact absurd h (List.not_mem_nil i)
  | cons x t ih =>
    intro n i h
    cases t with
    | nil => exact absurd h (List.not_mem_nil i)
    | cons y rest =>
      by_cases hk : key x = key y
      · simp [adjDupes, hk] at h
        rcases h with h | h
        · subst h
          simp only [List.length_cons]
          omega
        · have := ih (n + 1) i h
          simp only [List.length_cons] at this ⊢
          omega
      · simp [adjDupes, hk] at h
        have := ih (n + 1) i h
        simp only [List.length_cons] at this ⊢
        omega

lemma adjDupes_sorted [LinearOrder V] (key : T → V) :
    ∀ (l : List T) (n : Nat), List.Sorted (· < ·) (adjDupes key l n) := by
  intro l
  induction l with
  | nil => intro n; exact List.sorted_nil
  | cons x t ih =>
    intro n
    cases t with
    | nil => exact List.sorted_nil
    | cons y rest =>
      by_cases hk : key x = key y
      · simp only [adjDupes, if_pos hk]
        refine List.sorted_cons.mpr ⟨?_, ih (n + 1)⟩
        intro b hb
        have := adjDupes_lb key (y :: rest) (n + 1) b hb
        omega
      · simp only [adjDupes, if_neg hk]
        exact ih (n + 1)

lemma adjDupes_map_getD [LinearOrder V] [Inhabited T] (key : T → V) :
    ∀ l : List T, (adjDupes key l 0).map (fun i => l.getD i default) = runDrops key l := by
  intro l
  induction l with
  | nil => rfl
  | cons x t ih =>
    cases t with
    | nil => rfl
    | cons y rest =>
      have hshift : adjDupes key (y :: rest) 1 = (adjDupes key (y :: rest) 0).map (· + 1) :=
        adjDupes_shift key (y :: rest) 0
      by_cases hk : key x = key y
      · simp only [adjDupes, if_pos hk, runDrops, hshift]
        rw [List.map_cons]
        congr 1
        rw [List.map_map, ← ih]
        apply List.map_congr_left
        intro j _
        simp [List.getD_cons_succ]
      · simp only [adjDupes, if_neg hk, runDrops, hshift]
        rw [List.map_map, ← ih]
        apply List.map_congr_left
        intro j _
        simp [List.getD_cons_succ]

lemma adjDupes_mem_iff [LinearOrder V] [Inhabited T] (key : T → V) :
    ∀ (l : List T) (i : Nat), i ∈ adjDupes key l 0 ↔
      (i + 1 < l.length ∧ key (l.getD i default) = key (l.getD (i + 1) default)) := by
  intro l
  induction l with
  | nil => intro i; simp [adjDupes]
  | cons x t ih =>
    intro i
    cases t with
    | nil =>
      simp [adjDupes]
    | cons y rest =>
      have hshift : adjDupes key (y :: rest) 1 = (adjDupes key (y :: rest) 0).map (· + 1) :=
        adjDupes_shift key (y :: rest) 0
      cases i with
      | zero =>
        by_cases hk : key x = key y <;>
          simp [adjDupes, hk, hshift, List.length_cons]
      | succ j =>
        by_cases hk : key x = key y <;>
          simpa [adjDupes, hk, hshift, List.getD_cons_succ, Nat.succ_lt_succ_iff]
            using ih j

lemma runLasts_append_runDrops_perm [LinearOrder V] (key : T → V) :
    ∀ l : List T, (runLasts key l ++ runDrops key l).Perm l := by
  intro l
  induction l with
  | nil => exact List.Perm.refl []
  | cons x t ih =>
    cases t with
    | nil => simp [runLasts, runDrops]
    | cons y rest =>
      by_cases hk : key x = key y
      · simp only [runLasts, runDrops, if_pos hk]
        exact List.perm_middle.trans (ih.cons x)
      · simp only [runLasts, runDrops, if_neg hk, List.cons_append]
        exact ih.cons x

lemma countName_nil (k : Filename) : countName k [] = 0 := rfl

lemma countName_cons (k x : Filename) (l : List Filename) :
    countName k (x :: l) = countName k l + if x = k then 1 else 0 := by
  unfold countName
  rw [List.countP_cons]
  by_cases h : x = k <;> simp [h]

lemma countName_eq_zero_iff (k : Filename) (l : List Filename) :
    countName k l = 0 ↔ k ∉ l := by
  induction l with
  | nil => simp [countName_nil]
  | cons x t ih =>
    rw [countName_cons]
    by_cases h : x = k
    · subst h
      simp
    · simp [h, Ne.symm h, ih]

lemma countName_perm {l l' : List Filename} (h : l.Perm l') (k : Filename) :
    countName k l = countName k l' :=
  h.countP_eq _

lemma nodup_of_countName_le_one {l : List Filename} (h : ∀ k, countName k l ≤ 1) :
    l.Nodup := by
  induction l with
  | nil => exact List.nodup_nil
  | cons x t ih =>
    refine List.nodup_cons.mpr ⟨?_, ?_⟩
    · have hx := h x
      rw [countName_cons, if_pos rfl] at hx
      exact (countName_eq_zero_iff x t).mp (by omega)
    · refine ih fun k => ?_
      have hk := h k
      rw [countName_cons] at hk
      by_cases hxk : x = k
      · rw [if_pos hxk] at hk
        omega
      · rw [if_neg hxk] at hk
        omega

lemma runLasts_count (key : T → Filename) :
    ∀ l : List T, List.Pairwise (fun a b => key a ≤ key b) l →
      ∀ k : Filename, countName k ((runLasts key l).map key)
        = if k ∈ l.map key then 1 else 0 := by
  intro l
  induction l with
  | nil => intro _ k; simp [runLasts, countName_nil]
  | cons x t ih =>
    intro hpw k
    cases t with
    | nil =>
      have hruns : runLasts key [x] = [x] := rfl
      rw [hruns, List.map_cons, List.map_nil, countName_cons, countName_nil]
      by_cases hkx : key x = k
      · rw [if_pos hkx, if_pos (List.mem_singleton.mpr hkx.symm)]
      · rw [if_neg hkx, if_neg (fun hc => hkx (List.mem_singleton.mp hc).symm)]
    | cons y rest =>
      have hxy : key x ≤ key y :=
        (List.pairwise_cons.mp hpw).1 y (List.mem_cons_self y rest)
      have hrest : List.Pairwise (fun a b => key a ≤ key b) (y :: rest) :=
        (List.pairwise_cons.mp hpw).2
      have ih' := ih hrest k
      by_cases hk : key x = key y
      · have hruns : runLasts key (x :: y :: rest) = runLasts key (y :: rest) := by
          simp [runLasts, hk]
        rw [hruns, ih']
        have hmem_iff : k ∈ List.map key (x :: y :: rest)
            ↔ k ∈ List.map key (y :: rest) := by
          rw [List.map_cons, List.mem_cons]
          constructor
          · rintro (h | h)
            · rw [h, hk]
              exact List.mem_map_of_mem key (List.mem_cons_self y rest)
            · exact h
          · exact Or.inr
        by_cases hmem : k ∈ List.map key (y :: rest)
        · rw [if_pos hmem, if_pos (hmem_iff.mpr hmem)]
        · rw [if_neg hmem, if_neg (fun hc => hmem (hmem_iff.mp hc))]
      · have hnotmem : key x ∉ (y :: rest).map key := by
          intro hmem
          rcases List.mem_map.mp hmem with ⟨z, hz, hkey⟩
          rcases List.mem_cons.mp hz with h | h
          · subst h
            exact hk hkey.symm
          · have h2 : key y ≤ key z := (List.pairwise_cons.mp hrest).1 z h
            have h3 : key y = key x := le_antisymm (hkey ▸ h2) hxy
            exact hk h3.symm
        have hruns : runLasts key (x :: y :: rest) = x :: runLasts key (y :: rest) := by
          simp [runLasts, hk]
        have hcnt : countName k (List.map key (runLasts key (x :: y :: rest)))
            = countName k (List.map key (runLasts key (y :: rest)))
              + (if k = key x then 1 else 0) := by
          rw [hruns, List.map_cons, countName_cons]
          by_cases hkx : k = key x
          · rw [if_pos hkx.symm, if_pos hkx]
          · rw [if_neg (fun h => hkx h.symm), if_neg hkx]
        have hmem_iff : k ∈ List.map key (x :: y :: rest)
            ↔ (k = key x ∨ k ∈ List.map key (y :: rest)) := by
          rw [List.map_cons, List.mem_cons]
        rw [hcnt, ih']
        by_cases hkx : k = key x
        · have h0 : k ∉ List.map key (y :: rest) := by
            rw [hkx]
            exact hnotmem
          rw [if_neg h0, if_pos (hmem_iff.mpr (Or.inl hkx)), if_pos hkx]
        · by_cases hmem : k ∈ List.map key (y :: rest)
          · rw [if_pos hmem, if_pos (hmem_iff.mpr (Or.inr hmem)), if_neg hkx]
          · rw [if_neg hmem, if_neg (fun hc => (hmem_iff.mp hc).elim hkx hmem),
              if_neg hkx]

lemma sortByKey_perm [LinearOrder V] (key : T → V) (slice : List T) :
    (sortByKey key slice).Perm slice :=
  List.perm_insertionSort _ _

lemma sortByKey_pairwise [LinearOrder V] (key : T → V) (slice : List T) :
    List.Pairwise (fun a b => key a ≤ key b) (sortByKey key slice) := by
  haveI : IsTotal T (fun a b : T => key a ≤ key b) := ⟨fun a b => le_total _ _⟩
  haveI : IsTrans T (fun a b : T => key a ≤ key b) :=
    ⟨fun a b c hab hbc => le_trans hab hbc⟩
  exact List.sorted_insertionSort _ _

lemma find_dupes_by_key_of_long [LinearOrder V] (slice : List T) (key : T → V)
    (h : ¬ slice.length < 2) :
    find_dupes_by_key slice key
      = (sortByKey key slice, (adjDupes key (sortByKey key slice) 0).reverse) := by
  unfold find_dupes_by_key
  rw [if_neg h]

lemma find_dupes_by_key_of_short [LinearOrder V] (slice : List T) (key : T → V)
    (h : slice.length < 2) : find_dupes_by_key slice key = (slice, []) := by
  unfold find_dupes_by_key
  rw [if_pos h]

lemma find_dupes_idxs_sorted [LinearOrder V] (slice : List T) (key : T → V) :
    List.Sorted (· > ·) (find_dupes_by_key slice key).2 := by
  by_cases h : slice.length < 2
  · rw [find_dupes_by_key_of_short slice key h]
    exact List.sorted_nil
  · rw [find_dupes_by_key_of_long slice key h]
    exact List.pairwise_reverse.mpr (adjDupes_sorted key _ 0)

lemma find_dupes_idxs_lt [LinearOrder V] (slice : List T) (key : T → V) :
    ∀ i ∈ (find_dupes_by_key slice key).2, i < (find_dupes_by_key slice key).1.length := by
  by_cases h : slice.length < 2
  · rw [find_dupes_by_key_of_short slice key h]
    intro i hi
    exact absurd hi (List.not_mem_nil i)
  · rw [find_dupes_by_key_of_long slice key h]
    intro i hi
    have hi' : i ∈ (adjDupes key (sortByKey key slice) 0).reverse := hi
    have hub := adjDupes_ub key (sortByKey key slice) 0 i (List.mem_reverse.mp hi')
    show i < (sortByKey key slice).length
    omega

/-- Master decomposition of `applyDupes`: the names of the surviving plan plus
the warned names are a permutation of the original plan's names, and the
surviving plan is a permutation of the last element of each equal-filename run
of the sorted plan. -/
lemma applyDupes_spec (dl : List Downloadable) :
    ((applyDupes dl).1.map Downloadable.filename ++ (applyDupes dl).2).Perm
        (dl.map Downloadable.filename) ∧
    ((applyDupes dl).1).Perm
        (runLasts Downloadable.filename (sortByKey Downloadable.filename dl)) := by
  by_cases h : dl.length < 2
  · have he : applyDupes dl = (dl, []) := by
      simp [applyDupes, find_dupes_by_key_of_short dl Downloadable.filename h,
        swapRemoveAll, swapRemovedElems]
    rw [he]
    refine ⟨by simp, ?_⟩
    match dl, h with
    | [], _ => exact List.Perm.refl _
    | [x], _ => exact List.Perm.refl _
  · have he : applyDupes dl
        = (swapRemoveAll (sortByKey Downloadable.filename dl)
            ((adjDupes Downloadable.filename (sortByKey Downloadable.filename dl) 0).reverse),
           (swapRemovedElems (sortByKey Downloadable.filename dl)
            ((adjDupes Downloadable.filename (sortByKey Downloadable.filename dl) 0).reverse)).map
              Downloadable.filename) := by
      unfold applyDupes
      rw [find_dupes_by_key_of_long dl Downloadable.filename h]
    have hsorted : List.Sorted (· > ·)
        ((adjDupes Downloadable.filename (sortByKey Downloadable.filename dl) 0).reverse) := by
      have hs := find_dupes_idxs_sorted dl Downloadable.filename
      rw [find_dupes_by_key_of_long dl Downloadable.filename h] at hs
      exact hs
    have hlt : ∀ i ∈ (adjDupes Downloadable.filename
          (sortByKey Downloadable.filename dl) 0).reverse,
        i < (sortByKey Downloadable.filename dl).length := by
      have hs := find_dupes_idxs_lt dl Downloadable.filename
      rw [find_dupes_by_key_of_long dl Downloadable.filename h] at hs
      exact hs
    have hperm := swapRemoveAll_append_removed_perm _ _ hsorted hlt
    have hremoved : swapRemovedElems (sortByKey Downloadable.filename dl)
          ((adjDupes Downloadable.filename (sortByKey Downloadable.filename dl) 0).reverse)
        = (runDrops Downloadable.filename (sortByKey Downloadable.filename dl)).reverse := by
      rw [swapRemovedElems_eq_map _ _ hsorted hlt, List.map_reverse,
        adjDupes_map_getD Downloadable.filename]
    constructor
    · rw [he]
      have h1 : ((swapRemoveAll (sortByKey Downloadable.filename dl)
            ((adjDupes Downloadable.filename (sortByKey Downloadable.filename dl) 0).reverse)
          ++ swapRemovedElems (sortByKey Downloadable.filename dl)
            ((adjDupes Downloadable.filename
              (sortByKey Downloadable.filename dl) 0).reverse)).map
            Downloadable.filename).Perm
          ((sortByKey Downloadable.filename dl).map Downloadable.filename) :=
        hperm.map Downloadable.filename
      have h2 := (sortByKey_perm Downloadable.filename dl).map Downloadable.filename
      simpa [List.map_append] using h1.trans h2
    · rw [he]
      have hml : (↑(swapRemoveAll (sortByKey Downloadable.filename dl)
            ((adjDupes Downloadable.filename (sortByKey Downloadable.filename dl) 0).reverse))
          + ↑(swapRemovedElems (sortByKey Downloadable.filename dl)
            ((adjDupes Downloadable.filename (sortByKey Downloadable.filename dl) 0).reverse))
          : Multiset Downloadable)
          = (↑(sortByKey Downloadable.filename dl) : Multiset Downloadable) := by
        rw [Multiset.coe_add]
        exact Multiset.coe_eq_coe.mpr hperm
      have hmr : (↑(swapRemovedElems (sortByKey Downloadable.filename dl)
            ((adjDupes Downloadable.filename (sortByKey Downloadable.filename dl) 0).reverse))
          : Multiset Downloadable)
          = ↑(runDrops Downloadable.filename (sortByKey Downloadable.filename dl)) := by
        rw [hremoved]
        exact Multiset.coe_eq_coe.mpr (List.reverse_perm _)
      have hms : (↑(runLasts Downloadable.filename (sortByKey Downloadable.filename dl))
          + ↑(runDrops Downloadable.filename (sortByKey Downloadable.filename dl))
          : Multiset Downloadable)
          = (↑(sortByKey Downloadable.filename dl) : Multiset Downloadable) := by
        rw [Multiset.coe_add]
        exact Multiset.coe_eq_coe.mpr (runLasts_append_runDrops_perm _ _)
      rw [hmr] at hml
      have := hml.trans hms.symm
      have hcancel := add_right_cancel this
      exact Multiset.coe_eq_coe.mp hcancel

/-- After the duplicate-dropping phase, the download plan holds exactly one
entry per filename present in the original plan. -/
lemma applyDupes_count (dl : List Downloadable) (k : Filename) :
    countName k ((applyDupes dl).1.map Downloadable.filename)
      = if k ∈ dl.map Downloadable.filename then 1 else 0 := by
  have hspec := (applyDupes_spec dl).2
  have hcnt := countName_perm (hspec.map Downloadable.filename) k
  rw [hcnt, runLasts_count Downloadable.filename _
    (sortByKey_pairwise Downloadable.filename dl) k]
  congr 1
  simp [((sortByKey_perm Downloadable.filename dl).map Downloadable.filename).mem_iff]

lemma applyDupes_names_nodup (dl : List Downloadable) :
    ((applyDupes dl).1.map Downloadable.filename).Nodup := by
  refine nodup_of_countName_le_one fun k => ?_
  rw [applyDupes_count dl k]
  by_cases h : k ∈ dl.map Downloadable.filename <;> simp [h]

lemma applyDupes_subset (dl : List Downloadable) : (applyDupes dl).1 ⊆ dl := by
  by_cases h : dl.length < 2
  · simp [applyDupes, find_dupes_by_key_of_short dl Downloadable.filename h, swapRemoveAll]
  · intro x hx
    simp only [applyDupes, find_dupes_by_key_of_long dl Downloadable.filename h] at hx
    exact (sortByKey_perm Downloadable.filename dl).subset
      (swapRemoveAll_subset _ _ hx)

end DedupLemmas

section CleanLemmas

lemma findIdx?_some_mem {α : Type} (p : α → Bool) :
    ∀ (l : List α) (j i : Nat), List.findIdx? p l j = some i → ∃ x ∈ l, p x = true := by
  intro l
  induction l with
  | nil => intro j i h; exact absurd h (by simp [List.findIdx?])
  | cons x t ih =>
    intro j i h
    rw [List.findIdx?_cons] at h
    by_cases hp : p x = true
    · exact ⟨x, List.mem_cons_self x t, hp⟩
    · rw [if_neg hp] at h
      rcases ih (j + 1) i h with ⟨y, hy, hpy⟩
      exact ⟨y, List.mem_cons_of_mem x hy, hpy⟩

lemma findIdx?_some_spec {α : Type} (p : α → Bool) (d : α) :
    ∀ (l : List α) (j i : Nat), List.findIdx? p l j = some i →
      j ≤ i ∧ i - j < l.length ∧ p (l.getD (i - j) d) = true := by
  intro l
  induction l with
  | nil => intro j i h; exact absurd h (by simp [List.findIdx?])
  | cons x t ih =>
    intro j i h
    rw [List.findIdx?_cons] at h
    by_cases hp : p x = true
    · rw [if_pos hp] at h
      have hij : i = j := (Option.some_inj.mp h).symm
      subst hij
      simp [hp]
    · rw [if_neg hp] at h
      rcases ih (j + 1) i h with ⟨hle, hlt, hpelt⟩
      have hji : j + 1 ≤ i := hle
      have hsub : i - j = (i - (j + 1)) + 1 := by omega
      refine ⟨by omega, by simp [List.length_cons]; omega, ?_⟩
      rw [hsub, List.getD_cons_succ]
      exact hpelt

lemma findIdx?_none_not_mem_names {l : List Downloadable} {nm : Filename}
    (h : l.findIdx? (fun t => nm == t.filename) = none) :
    nm ∉ l.map Downloadable.filename := by
  intro hmem
  rcases List.mem_map.mp hmem with ⟨t, ht, hft⟩
  have := (List.findIdx?_eq_none_iff.mp h) t ht
  rw [show nm = t.filename from hft.symm] at this
  simp at this

lemma findIdx?_none_not_mem_ovnames {l : List OverrideEntry} {nm : Filename}
    (h : l.findIdx? (fun t => nm == t.name) = none) :
    nm ∉ l.map OverrideEntry.name := by
  intro hmem
  rcases List.mem_map.mp hmem with ⟨t, ht, hft⟩
  have := (List.findIdx?_eq_none_iff.mp h) t ht
  rw [show nm = t.name from hft.symm] at this
  simp at this

/-- Complete case analysis of the per-entry body of `clean`'s loop
(`src/modpack.rs:180-210`). -/
lemma cleanStep_spec (moveOk : Filename → Bool) (st : CleanState) (e : DirEntry) :
    (e.isFile = false ∧ cleanStep moveOk st e = (none, st)) ∨
    (e.isFile = true ∧ ∃ i, st.toDownload.findIdx? (fun t => e.name == t.filename) = some i ∧
      cleanStep moveOk st e = (some .keep, ⟨swapRemove st.toDownload i, st.toInstall⟩)) ∨
    (e.isFile = true ∧ st.toDownload.findIdx? (fun t => e.name == t.filename) = none ∧
      ∃ i, st.toInstall.findIdx? (fun t => e.name == t.name) = some i ∧
      cleanStep moveOk st e = (some .keep, ⟨st.toDownload, swapRemove st.toInstall i⟩)) ∨
    (e.isFile = true ∧ st.toDownload.findIdx? (fun t => e.name == t.filename) = none ∧
      st.toInstall.findIdx? (fun t => e.name == t.name) = none ∧
      (cleanStep moveOk st e = (some .delete, st) ∨
        cleanStep moveOk st e = (some .moveOld, st)) ∧
      ((str "part").isSuffixOf e.name = true →
        cleanStep moveOk st e = (some .delete, st))) := by
  by_cases hf : e.isFile = true
  · cases hdl : st.toDownload.findIdx? (fun t => e.name == t.filename) with
    | some i =>
      refine Or.inr (Or.inl ⟨hf, i, rfl, ?_⟩)
      unfold cleanStep
      rw [if_pos hf, hdl]
    | none =>
      cases hinst : st.toInstall.findIdx? (fun t => e.name == t.name) with
      | some i =>
        refine Or.inr (Or.inr (Or.inl ⟨hf, rfl, i, rfl, ?_⟩))
        unfold cleanStep
        rw [if_pos hf, hdl, hinst]
      | none =>
        refine Or.inr (Or.inr (Or.inr ⟨hf, rfl, rfl, ?_, ?_⟩))
        · by_cases hsuf : (str "part").isSuffixOf e.name = true
          · left
            unfold cleanStep
            rw [if_pos hf, hdl, hinst, if_pos hsuf]
          · by_cases hmv : moveOk e.name = true
            · right
              unfold cleanStep
              rw [if_pos hf, hdl, hinst, if_neg hsuf, if_pos hmv]
            · left
              unfold cleanStep
              rw [if_pos hf, hdl, hinst, if_neg hsuf, if_neg hmv]
        · intro hsuf
          unfold cleanStep
          rw [if_pos hf, hdl, hinst, if_pos hsuf]
  · refine Or.inl ⟨by simpa using hf, ?_⟩
    unfold cleanStep
    rw [if_neg hf]

lemma cleanLoop_cons (moveOk : Filename → Bool) (e : DirEntry) (rest : List DirEntry)
    (st : CleanState) :
    cleanLoop moveOk (e :: rest) st
      = ((e, (cleanStep moveOk st e).1)
          :: (cleanLoop moveOk rest (cleanStep moveOk st e).2).1,
         (cleanLoop moveOk rest (cleanStep moveOk st e).2).2) := rfl

lemma clean_eq (moveOk : Filename → Bool) (b : Bool) (es : List DirEntry)
    (st : CleanState) :
    clean moveOk b es st
      = ⟨(cleanLoop moveOk es ⟨(applyDupes st.toDownload).1, st.toInstall⟩).1,
         (applyDupes st.toDownload).2, !b,
         (cleanLoop moveOk es ⟨(applyDupes st.toDownload).1, st.toInstall⟩).2⟩ := rfl

lemma countName_le_one_of_nodup : ∀ {l : List Filename}, l.Nodup →
    ∀ k, countName k l ≤ 1 := by
  intro l
  induction l with
  | nil => intro _ k; simp [countName_nil]
  | cons x t ih =>
    intro h k
    rw [countName_cons]
    rcases List.nodup_cons.mp h with ⟨hx, ht⟩
    by_cases hxk : x = k
    · subst hxk
      rw [if_pos rfl, (countName_eq_zero_iff x t).mpr hx]
    · rw [if_neg hxk]
      have := ih ht k
      omega

lemma swapRemove_matched_not_mem (dl : List Downloadable) (nm : Filename) (i : Nat)
    (hnodup : (dl.map Downloadable.filename).Nodup)
    (hdl : dl.findIdx? (fun t => nm == t.filename) = some i) :
    nm ∉ (swapRemove dl i).map Downloadable.filename := by
  have hspec := findIdx?_some_spec (fun t => nm == t.filename) default dl 0 i hdl
  have hi : i < dl.length := by
    have := hspec.2.1
    omega
  have hname : (dl.getD i default).filename = nm := by
    have := hspec.2.2
    simp only [Nat.sub_zero] at this
    exact (eq_of_beq this).symm
  have hperm1 : ((swapRemove dl i).map Downloadable.filename).Perm
      ((dl.eraseIdx i).map Downloadable.filename) :=
    (swapRemove_perm_eraseIdx dl i hi).map _
  have hperm2 : (dl.map Downloadable.filename).Perm
      (nm :: (dl.eraseIdx i).map Downloadable.filename) := by
    have := (perm_getD_cons_eraseIdx dl i hi default).map Downloadable.filename
    rwa [List.map_cons, hname] at this
  have hle := countName_le_one_of_nodup hnodup nm
  rw [countName_perm hperm2 nm, countName_cons, if_pos rfl] at hle
  have hzero : countName nm ((dl.eraseIdx i).map Downloadable.filename) = 0 := by omega
  have hnot := (countName_eq_zero_iff _ _).mp hzero
  exact fun hmem => hnot (hperm1.mem_iff.mp hmem)

lemma findIdx?_some_lt {α : Type} [Inhabited α] (p : α → Bool) {l : List α} {i : Nat}
    (h : l.findIdx? p = some i) : i < l.length := by
  have := (findIdx?_some_spec p default l 0 i h).2.1
  omega

lemma swapRemove_names_nodup {dl : List Downloadable} {i : Nat} (hi : i < dl.length)
    (h : (dl.map Downloadable.filename).Nodup) :
    ((swapRemove dl i).map Downloadable.filename).Nodup := by
  have hperm : ((swapRemove dl i).map Downloadable.filename).Perm
      ((dl.eraseIdx i).map Downloadable.filename) :=
    (swapRemove_perm_eraseIdx dl i hi).map _
  have hsub : ((dl.eraseIdx i).map Downloadable.filename).Sublist
      (dl.map Downloadable.filename) :=
    (List.eraseIdx_sublist dl i).map _
  exact hperm.nodup_iff.mpr (h.sublist hsub)

lemma cleanStep_toDownload_subset (moveOk : Filename → Bool) (st : CleanState)
    (e : DirEntry) : (cleanStep moveOk st e).2.toDownload ⊆ st.toDownload := by
  rcases cleanStep_spec moveOk st e with ⟨_, heq⟩ | ⟨_, i, _, heq⟩ |
    ⟨_, _, i, _, heq⟩ | ⟨_, _, _, heq | heq, _⟩ <;> rw [heq]
  · exact List.Subset.refl _
  · exact swapRemove_subset _ _
  · exact List.Subset.refl _
  · exact List.Subset.refl _
  · exact List.Subset.refl _

lemma cleanStep_toInstall_subset (moveOk : Filename → Bool) (st : CleanState)
    (e : DirEntry) : (cleanStep moveOk st e).2.toInstall ⊆ st.toInstall := by
  rcases cleanStep_spec moveOk st e with ⟨_, heq⟩ | ⟨_, i, _, heq⟩ |
    ⟨_, _, i, _, heq⟩ | ⟨_, _, _, heq | heq, _⟩ <;> rw [heq]
  · exact List.Subset.refl _
  · exact List.Subset.refl _
  · exact swapRemove_subset _ _
  · exact List.Subset.refl _
  · exact List.Subset.refl _

lemma cleanStep_names_nodup (moveOk : Filename → Bool) (st : CleanState) (e : DirEntry)
    (h : (st.toDownload.map Downloadable.filename).Nodup) :
    ((cleanStep moveOk st e).2.toDownload.map Downloadable.filename).Nodup := by
  rcases cleanStep_spec moveOk st e with ⟨_, heq⟩ | ⟨_, i, hdl, heq⟩ |
    ⟨_, _, i, _, heq⟩ | ⟨_, _, _, heq | heq, _⟩ <;> rw [heq]
  · exact h
  · exact swapRemove_names_nodup (findIdx?_some_lt _ hdl) h
  · exact h
  · exact h
  · exact h

lemma cleanLoop_toDownload_subset (moveOk : Filename → Bool) :
    ∀ (es : List DirEntry) (st : CleanState),
      (cleanLoop moveOk es st).2.toDownload ⊆ st.toDownload := by
  intro es
  induction es with
  | nil => intro st; exact List.Subset.refl _
  | cons e rest ih =>
    intro st
    rw [cleanLoop_cons]
    exact (ih (cleanStep moveOk st e).2).trans (cleanStep_toDownload_subset moveOk st e)

lemma cleanLoop_toInstall_subset (moveOk : Filename → Bool) :
    ∀ (es : List DirEntry) (st : CleanState),
      (cleanLoop moveOk es st).2.toInstall ⊆ st.toInstall := by
  intro es
  induction es with
  | nil => intro st; exact List.Subset.refl _
  | cons e rest ih =>
    intro st
    rw [cleanLoop_cons]
    exact (ih (cleanStep moveOk st e).2).trans (cleanStep_toInstall_subset moveOk st e)

lemma cleanLoop_map_fst (moveOk : Filename → Bool) :
    ∀ (es : List DirEntry) (st : CleanState),
      (cleanLoop moveOk es st).1.map Prod.fst = es := by
  intro es
  induction es with
  | nil => intro st; rfl
  | cons e rest ih =>
    intro st
    rw [cleanLoop_cons, List.map_cons, ih]

lemma cleanLoop_action_classified (moveOk : Filename → Bool) :
    ∀ (es : List DirEntry) (st : CleanState), ∀ p ∈ (cleanLoop moveOk es st).1,
      (p.1.isFile = true →
        p.2 = some FileAction.keep ∨ p.2 = some FileAction.moveOld ∨
          p.2 = some FileAction.delete) ∧
      (p.1.isFile = false → p.2 = none) := by
  intro es
  induction es with
  | nil => intro st p hp; exact absurd hp (List.not_mem_nil p)
  | cons e rest ih =>
    intro st p hp
    rw [cleanLoop_cons] at hp
    rcases List.mem_cons.mp hp with hp | hp
    · subst hp
      rcases cleanStep_spec moveOk st e with ⟨hf, heq⟩ | ⟨hf, i, _, heq⟩ |
        ⟨hf, _, i, _, heq⟩ | ⟨hf, _, _, heq | heq, _⟩ <;> rw [heq] <;>
        constructor <;> intro hfile <;> simp_all
    · exact ih (cleanStep moveOk st e).2 p hp

lemma cleanLoop_not_downloaded_again (moveOk : Filename → Bool) :
    ∀ (es : List DirEntry) (st : CleanState),
      (st.toDownload.map Downloadable.filename).Nodup →
      ∀ p ∈ (cleanLoop moveOk es st).1, p.1.isFile = true →
        p.1.name ∉ (cleanLoop moveOk es st).2.toDownload.map Downloadable.filename := by
  intro es
  induction es with
  | nil => intro st _ p hp; exact absurd hp (List.not_mem_nil p)
  | cons e rest ih =>
    intro st hnodup p hp hfile
    have hnodup' := cleanStep_names_nodup moveOk st e hnodup
    rw [cleanLoop_cons] at hp ⊢
    have hfinsub : (cleanLoop moveOk rest (cleanStep moveOk st e).2).2.toDownload
        ⊆ (cleanStep moveOk st e).2.toDownload :=
      cleanLoop_toDownload_subset moveOk rest (cleanStep moveOk st e).2
    rcases List.mem_cons.mp hp with hp | hp
    · subst hp
      intro hmem
      rcases List.mem_map.mp hmem with ⟨t, ht, hft⟩
      have ht' : t ∈ (cleanStep moveOk st e).2.toDownload := hfinsub ht
      have hmem' : e.name ∈ (cleanStep moveOk st e).2.toDownload.map Downloadable.filename :=
        hft ▸ List.mem_map_of_mem Downloadable.filename ht'
      rcases cleanStep_spec moveOk st e with ⟨hf, heq⟩ | ⟨hf, i, hdl, heq⟩ |
        ⟨hf, hdl, i, hinst, heq⟩ | ⟨hf, hdl, hinst, hstale, _⟩
      · rw [hfile] at hf
        exact absurd hf (by simp)
      · rw [heq] at hmem'
        exact swapRemove_matched_not_mem st.toDownload e.name i hnodup hdl hmem'
      · rw [heq] at hmem'
        exact findIdx?_none_not_mem_names hdl hmem'
      · rcases hstale with heq | heq <;> rw [heq] at hmem' <;>
          exact findIdx?_none_not_mem_names hdl hmem'
    · exact ih (cleanStep moveOk st e).2 hnodup' p hp hfile

/-- The entries left in place by a pass, expressed entry by entry. -/
lemma keptEntries_cons_none (e : DirEntry) (acts : List (DirEntry × Option FileAction)) :
    keptEntries ((e, none) :: acts) = e :: keptEntries acts := rfl

lemma keptEntries_cons_keep (e : DirEntry) (acts : List (DirEntry × Option FileAction)) :
    keptEntries ((e, some FileAction.keep) :: acts) = e :: keptEntries acts := rfl

lemma keptEntries_cons_moveOld (e : DirEntry)
    (acts : List (DirEntry × Option FileAction)) :
    keptEntries ((e, some FileAction.moveOld) :: acts) = keptEntries acts := rfl

lemma keptEntries_cons_delete (e : DirEntry)
    (acts : List (DirEntry × Option FileAction)) :
    keptEntries ((e, some FileAction.delete) :: acts) = keptEntries acts := rfl

/-- Rerunning the loop on the entries a first pass left in place, from the same
desired sets the first pass started with, only produces skips and keeps. -/
lemma cleanLoop_idem (moveOk moveOk' : Filename → Bool) :
    ∀ (es : List DirEntry) (st : CleanState),
      ∀ p ∈ (cleanLoop moveOk' (keptEntries (cleanLoop moveOk es st).1) st).1,
        p.2 = none ∨ p.2 = some FileAction.keep := by
  intro es
  induction es with
  | nil => intro st p hp; exact absurd hp (List.not_mem_nil p)
  | cons e rest ih =>
    intro st p hp
    rw [cleanLoop_cons] at hp
    rcases cleanStep_spec moveOk st e with ⟨hf, heq⟩ | ⟨hf, i, hdl, heq⟩ |
      ⟨hf, hdl, i, hinst, heq⟩ | ⟨hf, hdl, hinst, hstale, _⟩
    · -- skipped non-file: it is kept and skipped again
      rw [heq] at hp
      rw [keptEntries_cons_none] at hp
      have hstep' : cleanStep moveOk' st e = (none, st) := by
        rcases cleanStep_spec moveOk' st e with ⟨_, heq'⟩ | ⟨hf', _, _, _⟩ |
          ⟨hf', _, _, _, _⟩ | ⟨hf', _, _, _, _⟩
        · exact heq'
        · rw [hf'] at hf; exact absurd hf (by simp)
        · rw [hf'] at hf; exact absurd hf (by simp)
        · rw [hf'] at hf; exact absurd hf (by simp)
      rw [cleanLoop_cons, hstep'] at hp
      rcases List.mem_cons.mp hp with hp | hp
      · subst hp; exact Or.inl rfl
      · exact ih st p hp
    · -- matched a desired download: matched again on the rerun
      rw [heq] at hp
      rw [keptEntries_cons_keep] at hp
      have hstep' : cleanStep moveOk' st e
          = (some .keep, ⟨swapRemove st.toDownload i, st.toInstall⟩) := by
        rcases cleanStep_spec moveOk' st e with ⟨hf', _⟩ | ⟨_, i', hdl', heq'⟩ |
          ⟨_, hdl', _, _, _⟩ | ⟨_, hdl', _, _, _⟩
        · rw [hf] at hf'; exact absurd hf' (by simp)
        · have : i' = i := by
            rw [hdl] at hdl'
            exact (Option.some_inj.mp hdl').symm
          rw [← this]
          exact heq'
        · rw [hdl] at hdl'; exact absurd hdl' (by simp)
        · rw [hdl] at hdl'; exact absurd hdl' (by simp)
      rw [cleanLoop_cons, hstep'] at hp
      rcases List.mem_cons.mp hp with hp | hp
      · subst hp; exact Or.inr rfl
      · exact ih ⟨swapRemove st.toDownload i, st.toInstall⟩ p hp
    · -- matched a desired install: matched again on the rerun
      rw [heq] at hp
      rw [keptEntries_cons_keep] at hp
      have hstep' : cleanStep moveOk' st e
          = (some .keep, ⟨st.toDownload, swapRemove st.toInstall i⟩) := by
        rcases cleanStep_spec moveOk' st e with ⟨hf', _⟩ | ⟨_, i', hdl', _⟩ |
          ⟨_, _, i', hinst', heq'⟩ | ⟨_, _, hinst', _, _⟩
        · rw [hf] at hf'; exact absurd hf' (by simp)
        · rw [hdl] at hdl'; exact absurd hdl' (by simp)
        · have : i' = i := by
            rw [hinst] at hinst'
            exact (Option.some_inj.mp hinst').symm
          rw [← this]
          exact heq'
        · rw [hinst] at hinst'; exact absurd hinst' (by simp)
      rw [cleanLoop_cons, hstep'] at hp
      rcases List.mem_cons.mp hp with hp | hp
      · subst hp; exact Or.inr rfl
      · exact ih ⟨st.toDownload, swapRemove st.toInstall i⟩ p hp
    · -- stale: the entry is gone from the kept list, sets unchanged
      rcases hstale with heq | heq <;> rw [heq] at hp
      · rw [keptEntries_cons_delete] at hp
        exact ih st p hp
      · rw [keptEntries_cons_moveOld] at hp
        exact ih st p hp

/-- Any file whose name ends in `"part"` is never moved to `.old`. -/
lemma cleanLoop_part_not_moved (moveOk : Filename → Bool) :
    ∀ (es : List DirEntry) (st : CleanState), ∀ p ∈ (cleanLoop moveOk es st).1,
      (str "part").isSuffixOf p.1.name = true → p.2 ≠ some FileAction.moveOld := by
  intro es
  induction es with
  | nil => intro st p hp; exact absurd hp (List.not_mem_nil p)
  | cons e rest ih =>
    intro st p hp hsuf
    rw [cleanLoop_cons] at hp
    rcases List.mem_cons.mp hp with hp | hp
    · subst hp
      rcases cleanStep_spec moveOk st e with ⟨_, heq⟩ | ⟨_, i, _, heq⟩ |
        ⟨_, _, i, _, heq⟩ | ⟨_, _, _, _, hpart⟩
      · rw [heq]; simp
      · rw [heq]; simp
      · rw [heq]; simp
      · rw [hpart hsuf]; simp
    · exact ih (cleanStep moveOk st e).2 p hp hsuf

/-- Any regular file whose name ends in `"part"` and matches neither desired
set is deleted. -/
lemma cleanLoop_part_unmatched_deleted (moveOk : Filename → Bool) :
    ∀ (es : List DirEntry) (st : CleanState), ∀ p ∈ (cleanLoop moveOk es st).1,
      p.1.isFile = true → (str "part").isSuffixOf p.1.name = true →
      p.1.name ∉ st.toDownload.map Downloadable.filename →
      p.1.name ∉ st.toInstall.map OverrideEntry.name →
      p.2 = some FileAction.delete := by
  intro es
  induction es with
  | nil => intro st p hp; exact absurd hp (List.not_mem_nil p)
  | cons e rest ih =>
    intro st p hp hfile hsuf hndl hninst
    rw [cleanLoop_cons] at hp
    rcases List.mem_cons.mp hp with hp | hp
    · subst hp
      rcases cleanStep_spec moveOk st e with ⟨hf, heq⟩ | ⟨hf, i, hdl, heq⟩ |
        ⟨hf, hdl, i, hinst, heq⟩ | ⟨hf, hdl, hinst, _, hpart⟩
      · rw [hfile] at hf
        exact absurd hf (by simp)
      · exfalso
        rcases findIdx?_some_mem _ _ _ _ hdl with ⟨t, ht, hpt⟩
        exact hndl ((eq_of_beq hpt) ▸ List.mem_map_of_mem Downloadable.filename ht)
      · exfalso
        rcases findIdx?_some_mem _ _ _ _ hinst with ⟨t, ht, hpt⟩
        exact hninst ((eq_of_beq hpt) ▸ List.mem_map_of_mem OverrideEntry.name ht)
      · rw [hpart hsuf]
    · refine ih (cleanStep moveOk st e).2 p hp hfile hsuf ?_ ?_
      · intro hmem
        rcases List.mem_map.mp hmem with ⟨t, ht, hft⟩
        exact hndl (hft ▸ List.mem_map_of_mem Downloadable.filename
          (cleanStep_toDownload_subset moveOk st e ht))
      · intro hmem
        rcases List.mem_map.mp hmem with ⟨t, ht, hft⟩
        exact hninst (hft ▸ List.mem_map_of_mem OverrideEntry.name
          (cleanStep_toInstall_subset moveOk st e ht))

end CleanLemmas

section SchedulerProofs

lemma validTrace_running_le {limit n : Nat} :
    ∀ (tr : List DlEvent) (next : Nat) (running : List Nat),
      validTrace limit n next running tr = true → running.length ≤ limit →
      ∀ k, (runningAfter running (tr.take k)).length ≤ limit := by
  intro tr
  induction tr with
  | nil =>
    intro next running _ hle k
    simpa [runningAfter] using hle
  | cons e tr ih =>
    intro next running hv hle k
    cases k with
    | zero => simpa [runningAfter] using hle
    | succ k =>
      cases e with
      | start i =>
        simp only [validTrace, Bool.and_eq_true, beq_iff_eq, decide_eq_true_eq] at hv
        obtain ⟨⟨⟨hnext, hn⟩, hlt⟩, hv⟩ := hv
        simpa [runningAfter] using ih (next + 1) (i :: running) hv (by simpa using hlt) k
      | finish i =>
        simp only [validTrace, Bool.and_eq_true] at hv
        obtain ⟨hmem, hv⟩ := hv
        exact ih next (running.erase i) hv
          (le_trans (List.erase_sublist i running).length_le hle) k

lemma joinLoopResult_all_success :
    ∀ compl : List TaskCompletion, (∀ c ∈ compl, c.result = .success) →
      joinLoopResult compl = .success ∧
      performedTasks compl = compl.map TaskCompletion.idx := by
  intro compl h
  induction compl with
  | nil => exact ⟨rfl, rfl⟩
  | cons c rest ih =>
    have hc : c.result = .success := h c (List.mem_cons_self c rest)
    have ih' := ih fun x hx => h x (List.mem_cons_of_mem c hx)
    constructor
    · simp [joinLoopResult, hc, ih'.1]
    · simp [performedTasks, hc, ih'.2]

lemma joinLoopResult_first_failure :
    ∀ (pre : List TaskCompletion) (c : TaskCompletion) (post : List TaskCompletion)
      (e : Filename), (∀ p ∈ pre, p.result = .success) → c.result = .failure e →
      joinLoopResult (pre ++ c :: post) = .failure e ∧
      performedTasks (pre ++ c :: post) = pre.map TaskCompletion.idx ++ [c.idx] := by
  intro pre
  induction pre with
  | nil =>
    intro c post e _ hc
    constructor
    · simp [joinLoopResult, hc]
    · simp [performedTasks, hc]
  | cons p pre ih =>
    intro c post e hpre hc
    have hp : p.result = .success := hpre p (List.mem_cons_self p pre)
    have ih' := ih c post e (fun x hx => hpre x (List.mem_cons_of_mem p hx)) hc
    constructor
    · simp [joinLoopResult, hp, ih'.1]
    · simp [performedTasks, hp, ih'.2]

lemma joinLoopResult_ne_success_of_failure :
    ∀ (compl : List TaskCompletion) (c : TaskCompletion) (e : Filename),
      c ∈ compl → c.result = .failure e → joinLoopResult compl ≠ .success := by
  intro compl
  induction compl with
  | nil => intro c e h; exact absurd h (List.not_mem_nil c)
  | cons d rest ih =>
    intro c e hmem hc
    rcases List.mem_cons.mp hmem with h | h
    · subst h
      simp [joinLoopResult, hc]
    · cases hd : d.result with
      | success => simpa [joinLoopResult, hd] using ih c e h hc
      | failure f => simp [joinLoopResult, hd]

end SchedulerProofs

/-- C1 counterexample.  The claim asserts that after the first failed transfer
the scheduler still waits for every outstanding transfer to finish, so that
every submitted item's side effects are performed.  In the code
(`src/modpack.rs:236-238`), `res??` returns from `download` at the first
failed completion, dropping the `JoinSet` and aborting the still-running
tasks.  Concretely: two submitted downloadables, task 0 completes first with a
failure while task 1 (a transfer that would succeed) is still outstanding; the
run returns the failure but task 1's side effects are never performed. -/
theorem C1_counterexample_no_drain_after_failure :
    ([⟨0, .failure (str "boom")⟩, ⟨1, .success⟩] : List TaskCompletion).map
        TaskCompletion.idx = List.range 2 ∧
    joinLoopResult [⟨0, .failure (str "boom")⟩, ⟨1, .success⟩]
      = .failure (str "boom") ∧
    1 ∉ performedTasks [⟨0, .failure (str "boom")⟩, ⟨1, .success⟩] := by
  decide

/-- C1 (amended): the scheduler inspects completions in order; if every
transfer succeeds it returns success with every submitted item's side effects
performed, and at the first observed failure it returns that failure
immediately with exactly the transfers completed so far (the failing one
included) performed — later outstanding transfers are aborted, not drained.
The run fails whenever any transfer completed with a failure. -/
theorem C1_scheduler_first_failure_semantics (compl : List TaskCompletion) :
    ((∀ c ∈ compl, c.result = .success) →
      joinLoopResult compl = .success ∧
      performedTasks compl = compl.map TaskCompletion.idx) ∧
    (∀ (pre : List TaskCompletion) (c : TaskCompletion) (post : List TaskCompletion)
        (e : Filename), compl = pre ++ c :: post →
        (∀ p ∈ pre, p.result = .success) → c.result = .failure e →
        joinLoopResult compl = .failure e ∧
        performedTasks compl = pre.map TaskCompletion.idx ++ [c.idx]) ∧
    (∀ (c : TaskCompletion) (e : Filename), c ∈ compl → c.result = .failure e →
        joinLoopResult compl ≠ .success) := by
  refine ⟨joinLoopResult_all_success compl, ?_, ?_⟩
  · intro pre c post e hsplit hpre hc
    subst hsplit
    exact joinLoopResult_first_failure pre c post e hpre hc
  · intro c e hmem hc
    exact joinLoopResult_ne_success_of_failure compl c e hmem hc

/-- Witness for `C1_scheduler_first_failure_semantics` at a concrete
completion order. -/
theorem C1_scheduler_first_failure_semantics_witness :
    joinLoopResult [⟨2, .success⟩, ⟨0, .failure (str "e")⟩, ⟨1, .success⟩]
      = .failure (str "e") ∧
    performedTasks [⟨2, .success⟩, ⟨0, .failure (str "e")⟩, ⟨1, .success⟩]
      = [2, 0] := by
  have h := (C1_scheduler_first_failure_semantics
      [⟨2, .success⟩, ⟨0, .failure (str "e")⟩, ⟨1, .success⟩]).2.1
      [⟨2, .success⟩] ⟨0, .failure (str "e")⟩ [⟨1, .success⟩] (str "e")
      rfl (by decide) rfl
  exact ⟨h.1, h.2⟩

/-- C9: bounded concurrency.  Any valid interleaving of `download`'s
spawn/acquire/finish machinery (a permit from the 75-permit semaphore is
acquired before a transfer starts and held until it completes,
`src/modpack.rs:222-235`) keeps at most `concurrencyLimit = 75` transfers in
flight at every point of the trace, for any number `n` of downloadables. -/
theorem C9_bounded_concurrency (n : Nat) (tr : List DlEvent)
    (hv : validTrace concurrencyLimit n 0 [] tr = true) :
    ∀ k, (runningAfter [] (tr.take k)).length ≤ concurrencyLimit :=
  validTrace_running_le tr 0 [] hv (Nat.zero_le _)

set_option maxRecDepth 4000 in
/-- Witness for `C9_bounded_concurrency`: a concrete valid trace of 200
downloadables (the spec's example size). -/
theorem C9_bounded_concurrency_witness :
    validTrace concurrencyLimit 200 0 []
        ((List.range 200).flatMap (fun i => [.start i, .finish i])) = true ∧
    (runningAfter []
        (((List.range 200).flatMap (fun i => [.start i, .finish i])).take
          101)).length ≤ concurrencyLimit := by
  refine ⟨by decide, C9_bounded_concurrency 200 _ (by decide) 101⟩


/-- C2: reconciliation is idempotent.  Running `clean` a second time over the
entries the first pass left in place (`keptEntries`; skipped non-file entries,
such as the `.old` subdirectory, pass through and are skipped again), with the
same desired sets the first run started from (unchanged manifest) and with the
`.old` subdirectory now existing, performs zero filesystem mutations: it does
not create `.old` again and every entry is skipped or kept — nothing is moved
or deleted. -/
theorem C2_clean_idempotent (moveOk moveOk' : Filename → Bool) (b : Bool)
    (es : List DirEntry) (st : CleanState) :
    (clean moveOk' true (keptEntries (clean moveOk b es st).actions) st).createdOldDir
        = false ∧
    ∀ p ∈ (clean moveOk' true (keptEntries (clean moveOk b es st).actions) st).actions,
      p.2 = none ∨ p.2 = some FileAction.keep := by
  constructor
  · rfl
  · intro p hp
    simp only [clean_eq] at hp
    exact cleanLoop_idem moveOk moveOk' es
      ⟨(applyDupes st.toDownload).1, st.toInstall⟩ p hp

/-- Witness for `C2_clean_idempotent`: a directory holding a stale file and an
already-satisfied download; on the second run the kept file is kept again. -/
theorem C2_clean_idempotent_witness :
    (((⟨str "keep.jar", true⟩, some FileAction.keep) :
        DirEntry × Option FileAction).2 = none ∨
      ((⟨str "keep.jar", true⟩, some FileAction.keep) :
        DirEntry × Option FileAction).2 = some FileAction.keep) :=
  (C2_clean_idempotent (fun _ => true) (fun _ => true) false
      [⟨str "old.jar", true⟩, ⟨str "keep.jar", true⟩] ⟨[⟨str "keep.jar"⟩], []⟩).2
    (⟨str "keep.jar", true⟩, some FileAction.keep) (by decide)

/-- C3: completeness of reconciliation.  A `clean` pass records exactly one
outcome for every directory entry, in order; a regular file's outcome is
exactly one of keep / move-to-`.old` / delete and a non-file is skipped; and no
regular file's name survives in the download plan the pass returns, so a file
present on disk and in the desired set is not downloaded again. -/
theorem C3_reconciliation_complete (moveOk : Filename → Bool) (b : Bool)
    (es : List DirEntry) (st : CleanState) :
    ((clean moveOk b es st).actions.map Prod.fst = es) ∧
    (∀ p ∈ (clean moveOk b es st).actions,
      (p.1.isFile = true →
        p.2 = some FileAction.keep ∨ p.2 = some FileAction.moveOld ∨
          p.2 = some FileAction.delete) ∧
      (p.1.isFile = false → p.2 = none)) ∧
    (∀ p ∈ (clean moveOk b es st).actions, p.1.isFile = true →
      p.1.name ∉ (clean moveOk b es st).final.toDownload.map Downloadable.filename) := by
  refine ⟨?_, ?_, ?_⟩
  · simp only [clean_eq]
    exact cleanLoop_map_fst moveOk es _
  · intro p hp
    simp only [clean_eq] at hp
    exact cleanLoop_action_classified moveOk es _ p hp
  · intro p hp hfile
    simp only [clean_eq] at hp ⊢
    exact cleanLoop_not_downloaded_again moveOk es _
      (applyDupes_names_nodup st.toDownload) p hp hfile

/-- Witness for `C3_reconciliation_complete`: a file that satisfies a desired
download is kept and its name leaves the download plan. -/
theorem C3_reconciliation_complete_witness :
    ((⟨str "a.jar", true⟩, some FileAction.keep) :
        DirEntry × Option FileAction).1.name ∉
      ((clean (fun _ => true) true [⟨str "a.jar", true⟩]
        ⟨[⟨str "a.jar"⟩], []⟩).final.toDownload.map Downloadable.filename) :=
  (C3_reconciliation_complete (fun _ => true) true [⟨str "a.jar", true⟩]
      ⟨[⟨str "a.jar"⟩], []⟩).2.2
    (⟨str "a.jar", true⟩, some FileAction.keep) (by decide) rfl

/-- C4: the duplicate detector reports exactly the indices (into the sorted
slice) of elements with an identical-filename successor — every member of an
equal-filename run except its last — so that, after the caller's
`swap_remove` of each reported index, exactly one entry per filename group
survives.  In particular for `["a.jar", "b.jar", "a.jar"]` it reports exactly
one index and exactly one `"a.jar"` item survives. -/
theorem C4_duplicate_detector (dl : List Downloadable) (i : Nat) :
    (i ∈ (find_dupes_by_key dl Downloadable.filename).2 ↔
      i + 1 < (find_dupes_by_key dl Downloadable.filename).1.length ∧
      ((find_dupes_by_key dl Downloadable.filename).1.getD i default).filename
        = ((find_dupes_by_key dl Downloadable.filename).1.getD (i + 1) default).filename) ∧
    (∀ k, countName k ((applyDupes dl).1.map Downloadable.filename)
        = if k ∈ dl.map Downloadable.filename then 1 else 0) ∧
    ((find_dupes_by_key [(⟨str "a.jar"⟩ : Downloadable), ⟨str "b.jar"⟩, ⟨str "a.jar"⟩]
        Downloadable.filename).2 = [0] ∧
      countName (str "a.jar")
        ((applyDupes [(⟨str "a.jar"⟩ : Downloadable), ⟨str "b.jar"⟩,
          ⟨str "a.jar"⟩]).1.map Downloadable.filename) = 1) := by
  refine ⟨?_, applyDupes_count dl, by decide, by decide⟩
  by_cases h : dl.length < 2
  · rw [find_dupes_by_key_of_short dl Downloadable.filename h]
    constructor
    · intro hi
      exact absurd hi (List.not_mem_nil i)
    · rintro ⟨hlen, _⟩
      have hlen' : i + 1 < dl.length := hlen
      exact absurd hlen' (by omega)
  · rw [find_dupes_by_key_of_long dl Downloadable.filename h]
    rw [List.mem_reverse]
    exact adjDupes_mem_iff Downloadable.filename (sortByKey Downloadable.filename dl) i

/-- Witness for `C4_duplicate_detector`: index 0 is reported for the example
because the sorted slice has an equal-filename adjacent pair there. -/
theorem C4_duplicate_detector_witness :
    0 ∈ (find_dupes_by_key [(⟨str "a.jar"⟩ : Downloadable), ⟨str "b.jar"⟩,
      ⟨str "a.jar"⟩] Downloadable.filename).2 :=
  ((C4_duplicate_detector [⟨str "a.jar"⟩, ⟨str "b.jar"⟩, ⟨str "a.jar"⟩] 0).1).mpr
    (by decide)

/-- C5 counterexample.  The claim says a file whose name ends in the partial
suffix is always deleted during reconciliation "regardless of the contents of
the desired sets".  But the `ends_with("part")` test (`src/modpack.rs:200`)
sits in the else-branch after the desired-set matches: a file named
`foo.jar.part` that matches a desired download with the same filename is kept
in place, not deleted. -/
theorem C5_counterexample_matched_part_file_kept :
    (clean (fun _ => true) true [⟨str "foo.jar.part", true⟩]
        ⟨[⟨str "foo.jar.part"⟩], []⟩).actions
      = [(⟨str "foo.jar.part", true⟩, some FileAction.keep)] ∧
    some FileAction.keep ≠ some FileAction.delete := by
  decide

/-- C5 (amended): a file whose name ends in `"part"` is never moved to `.old`,
whatever the desired sets; and a regular file ending in `".part"` that matches
no desired download or install entry is deleted.  (A `.part` name that does
match a desired entry is kept, per the counterexample.) -/
theorem C5_part_file_never_retired (moveOk : Filename → Bool) (b : Bool)
    (es : List DirEntry) (st : CleanState) :
    (∀ p ∈ (clean moveOk b es st).actions,
      (str "part").isSuffixOf p.1.name = true → p.2 ≠ some FileAction.moveOld) ∧
    (∀ p ∈ (clean moveOk b es st).actions, p.1.isFile = true →
      (str ".part").isSuffixOf p.1.name = true →
      p.1.name ∉ st.toDownload.map Downloadable.filename →
      p.1.name ∉ st.toInstall.map OverrideEntry.name →
      p.2 = some FileAction.delete) := by
  constructor
  · intro p hp hsuf
    simp only [clean_eq] at hp
    exact cleanLoop_part_not_moved moveOk es _ p hp hsuf
  · intro p hp hfile hsuf hndl hninst
    simp only [clean_eq] at hp
    have hsuffix : (str ".part") <:+ p.1.name := List.isSuffixOf_iff_suffix.mp hsuf
    have hsub : (str "part") <:+ (str ".part") := ⟨['.'], by decide⟩
    have hsuf' : (str "part").isSuffixOf p.1.name = true :=
      List.isSuffixOf_iff_suffix.mpr (hsub.trans hsuffix)
    have hndl' : p.1.name ∉ (applyDupes st.toDownload).1.map Downloadable.filename := by
      intro hmem
      rcases List.mem_map.mp hmem with ⟨t, ht, hft⟩
      exact hndl (hft ▸ List.mem_map_of_mem Downloadable.filename
        (applyDupes_subset st.toDownload ht))
    exact cleanLoop_part_unmatched_deleted moveOk es _ p hp hfile hsuf' hndl' hninst

/-- Witness for `C5_part_file_never_retired`: an unmatched `foo.jar.part` is
deleted. -/
theorem C5_part_file_never_retired_witness :
    ((⟨str "foo.jar.part", true⟩, some FileAction.delete) :
      DirEntry × Option FileAction).2 = some FileAction.delete :=
  (C5_part_file_never_retired (fun _ => true) true [⟨str "foo.jar.part", true⟩]
      ⟨[⟨str "x.jar"⟩], []⟩).2
    (⟨str "foo.jar.part", true⟩, some FileAction.delete)
    (by decide) rfl (by decide) (by decide) (by decide)

/-- C6: the duplicate-dropping phase happens before the directory scan: the
scanned plan is exactly `applyDupes` of the incoming plan, the warning lists
exactly the dropped filenames, the deduplicated plan holds exactly one entry
per filename group of the original plan, and the surviving names plus the
warned names are a permutation of the original plan's names. -/
theorem C6_duplicates_dropped_before_scan (moveOk : Filename → Bool) (b : Bool)
    (es : List DirEntry) (st : CleanState) :
    ((clean moveOk b es st).actions
      = (cleanLoop moveOk es ⟨(applyDupes st.toDownload).1, st.toInstall⟩).1) ∧
    ((clean moveOk b es st).droppedDupes = (applyDupes st.toDownload).2) ∧
    (∀ k, countName k ((applyDupes st.toDownload).1.map Downloadable.filename)
        = if k ∈ st.toDownload.map Downloadable.filename then 1 else 0) ∧
    (((applyDupes st.toDownload).1.map Downloadable.filename
        ++ (applyDupes st.toDownload).2).Perm
      (st.toDownload.map Downloadable.filename)) :=
  ⟨by rw [clean_eq], by rw [clean_eq], applyDupes_count st.toDownload,
    (applyDupes_spec st.toDownload).1⟩

/-- C7 counterexample.  `find_dupes_by_key` sorts the caller's slice in place
(`sort_unstable_by_key`, `src/modpack.rs:264`): after the call on
`["b.jar", "a.jar"]` the slice is `["a.jar", "b.jar"]`, not the input order. -/
theorem C7_counterexample_input_order_mutated :
    (find_dupes_by_key [(⟨str "b.jar"⟩ : Downloadable), ⟨str "a.jar"⟩]
        Downloadable.filename).1
      ≠ [⟨str "b.jar"⟩, ⟨str "a.jar"⟩] := by
  decide

/-- C7 (amended): the duplicate detector does mutate the caller's sequence:
for two or more elements it leaves the slice sorted by filename (a permutation
of the input, not its original order); with fewer than two elements it leaves
the slice untouched. -/
theorem C7_detector_sorts_in_place (dl : List Downloadable) :
    ((find_dupes_by_key dl Downloadable.filename).1.Perm dl) ∧
    (2 ≤ dl.length →
      List.Pairwise (fun a b : Downloadable => a.filename ≤ b.filename)
        (find_dupes_by_key dl Downloadable.filename).1) ∧
    (dl.length < 2 → (find_dupes_by_key dl Downloadable.filename).1 = dl) := by
  by_cases h : dl.length < 2
  · rw [find_dupes_by_key_of_short dl Downloadable.filename h]
    exact ⟨List.Perm.refl dl, fun h2 => absurd h2 (by omega), fun _ => rfl⟩
  · rw [find_dupes_by_key_of_long dl Downloadable.filename h]
    exact ⟨sortByKey_perm Downloadable.filename dl,
      fun _ => sortByKey_pairwise Downloadable.filename dl,
      fun h2 => absurd h2 h⟩

/-- Witness for `C7_detector_sorts_in_place` at a concrete two-element slice. -/
theorem C7_detector_sorts_in_place_witness :
    List.Pairwise (fun a b : Downloadable => a.filename ≤ b.filename)
      (find_dupes_by_key [(⟨str "b.jar"⟩ : Downloadable), ⟨str "a.jar"⟩]
        Downloadable.filename).1 :=
  (C7_detector_sorts_in_place [⟨str "b.jar"⟩, ⟨str "a.jar"⟩]).2.1 (by decide)

/-- C8 counterexample.  The claim says orchestration removes an override
entry from the desired-install set when its filename is already on disk.  But
`install_modpack` calls `clean` with a fresh empty install set
(`&mut Vec::new()`, `src/modpack.rs:136-142`) and hands the overrides read
from the archive to `download` unchanged: with `a.txt` on disk in the mods
directory and an `a.txt` override, the install set reaching the installer
still contains the entry. -/
theorem C8_counterexample_override_not_removed :
    (install_modpack_reconcile (fun _ => true) true true [⟨str "a.txt", true⟩] []
        [] [⟨str "a.txt", str "/tmp/a"⟩]).2
      = [⟨str "a.txt", str "/tmp/a"⟩] ∧
    (⟨str "a.txt", str "/tmp/a"⟩ : OverrideEntry) ∈
      (install_modpack_reconcile (fun _ => true) true true [⟨str "a.txt", true⟩] []
        [] [⟨str "a.txt", str "/tmp/a"⟩]).2 := by
  decide

/-- C8 (amended): during orchestration only the download plan is shared with
the reconciliation passes; each `clean` call receives an empty install set, so
the overrides reach the installer unchanged (and are re-copied even when
already present).  The removal mechanism itself exists inside `clean`: a
regular file matching an install entry removes that entry from the install
set, just as a matching download is removed. -/
theorem C8_orchestrator_overrides_unreconciled (moveOk : Filename → Bool)
    (b1 b2 : Bool) (mods rps : List DirEntry) (dl : List Downloadable)
    (ov : List OverrideEntry) :
    (install_modpack_reconcile moveOk b1 b2 mods rps dl ov).2 = ov ∧
    (∀ (st : CleanState) (e : DirEntry) (i : Nat), e.isFile = true →
      st.toDownload.findIdx? (fun t => e.name == t.filename) = none →
      st.toInstall.findIdx? (fun t => e.name == t.name) = some i →
      cleanStep moveOk st e
        = (some FileAction.keep, ⟨st.toDownload, swapRemove st.toInstall i⟩)) := by
  constructor
  · rfl
  · intro st e i hf hdl hinst
    unfold cleanStep
    rw [if_pos hf, hdl, hinst]

/-- Witness for `C8_orchestrator_overrides_unreconciled`: inside `clean`, an
on-disk file matching an install entry removes it from the install set. -/
theorem C8_orchestrator_overrides_unreconciled_witness :
    cleanStep (fun _ => true) ⟨[], [⟨str "a.txt", str "p"⟩]⟩ ⟨str "a.txt", true⟩
      = (some FileAction.keep, ⟨[], swapRemove [⟨str "a.txt", str "p"⟩] 0⟩) :=
  (C8_orchestrator_overrides_unreconciled (fun _ => true) true true [] [] [] []).2
    ⟨[], [⟨str "a.txt", str "p"⟩]⟩ ⟨str "a.txt", true⟩ 0 rfl (by decide) (by decide)

/-- C10: the partial-artifact test of `clean` is a bare `ends_with("part")`
(`src/modpack.rs:200`), with no preceding dot required: `"counterpart"` passes
the test though it does not end in `".part"`, and any regular file whose name
ends in `"part"` and matches no desired download or install entry is deleted
outright rather than retired to `.old`. -/
theorem C10_bare_part_suffix_deleted (moveOk : Filename → Bool) (b : Bool)
    (es : List DirEntry) (st : CleanState) :
    ((str "part").isSuffixOf (str "counterpart") = true ∧
      (str ".part").isSuffixOf (str "counterpart") = false) ∧
    ∀ p ∈ (clean moveOk b es st).actions, p.1.isFile = true →
      (str "part").isSuffixOf p.1.name = true →
      p.1.name ∉ st.toDownload.map Downloadable.filename →
      p.1.name ∉ st.toInstall.map OverrideEntry.name →
      p.2 = some FileAction.delete := by
  refine ⟨by decide, ?_⟩
  intro p hp hfile hsuf hndl hninst
  simp only [clean_eq] at hp
  have hndl' : p.1.name ∉ (applyDupes st.toDownload).1.map Downloadable.filename := by
    intro hmem
    rcases List.mem_map.mp hmem with ⟨t, ht, hft⟩
    exact hndl (hft ▸ List.mem_map_of_mem Downloadable.filename
      (applyDupes_subset st.toDownload ht))
  exact cleanLoop_part_unmatched_deleted moveOk es _ p hp hfile hsuf hndl' hninst

/-- Witness for `C10_bare_part_suffix_deleted`: the unmatched regular file
`counterpart` is deleted. -/
theorem C10_bare_part_suffix_deleted_witness :
    ((⟨str "counterpart", true⟩, some FileAction.delete) :
      DirEntry × Option FileAction).2 = some FileAction.delete :=
  (C10_bare_part_suffix_deleted (fun _ => true) true [⟨str "counterpart", true⟩]
      ⟨[⟨str "x.jar"⟩], []⟩).2
    (⟨str "counterpart", true⟩, some FileAction.delete) (by decide) rfl (by decide)
    (by decide) (by decide)
